import Mathlib

/-!
Verification of the request-governance core of the crypto MCP server:
the cache manager (`crypto_mcp_server/cache.py`) and the sliding-window
rate limiter (`crypto_mcp_server/rate_limiter.py`).

Python strings are modelled as `List Char` (`PyStr`), Python floats
(timestamps from `time.time()`) as exact rationals `ℚ`, and the Python
`None` as `Option.none` of an `Option`-valued payload, so that a stored
`None` and an absent entry can be distinguished in the model exactly as
far as the code itself can distinguish them.
-/

namespace CryptoMCP

/-- Python strings, modelled as their character lists. -/
abbrev PyStr := List Char

/-! ## Key construction (`CacheManager.build_key`, cache.py lines 119-132)

```python
parts = [str(arg) for arg in args]
parts.extend(f"{k}={v}" for k, v in sorted(kwargs.items()))
return ":".join(parts)
```

Positional arguments are modelled by their `str()` renderings (the code
applies `str` and never looks at the original value again), and `kwargs`
by a list of (name, rendered value) pairs.  `sorted` on pairs of Python
strings is lexicographic on the pair: by name, then by value. -/

/-- The order `sorted(kwargs.items())` sorts by: lexicographic on the
(name, value) pair. -/
def kwLe (p q : PyStr × PyStr) : Prop :=
  p.1 < q.1 ∨ (p.1 = q.1 ∧ p.2 ≤ q.2)

instance : DecidableRel kwLe := fun p q => by
  unfold kwLe; infer_instance

/-- Renders `f"{k}={v}"`: one `"name=value"` part. -/
def kwPart (p : PyStr × PyStr) : PyStr :=
  p.1 ++ '=' :: p.2

/-- Embeds `CacheManager.build_key` (cache.py lines 119-132). -/
def build_key (args : List PyStr) (kwargs : List (PyStr × PyStr)) : PyStr :=
  List.intercalate [':'] (args ++ (kwargs.insertionSort kwLe).map kwPart)

instance : IsTotal (PyStr × PyStr) kwLe where
  total p q := by
    rcases lt_trichotomy p.1 q.1 with h | h | h
    · exact Or.inl (Or.inl h)
    · rcases le_total p.2 q.2 with h2 | h2
      · exact Or.inl (Or.inr ⟨h, h2⟩)
      · exact Or.inr (Or.inr ⟨h.symm, h2⟩)
    · exact Or.inr (Or.inl h)

instance : IsTrans (PyStr × PyStr) kwLe where
  trans p q r hpq hqr := by
    rcases hpq with h | ⟨he, hv⟩
    · rcases hqr with h2 | ⟨he2, _⟩
      · exact Or.inl (h.trans h2)
      · exact Or.inl (he2 ▸ h)
    · rcases hqr with h2 | ⟨he2, hv2⟩
      · exact Or.inl (he ▸ h2)
      · exact Or.inr ⟨he.trans he2, hv.trans hv2⟩

instance : IsAntisymm (PyStr × PyStr) kwLe where
  antisymm p q hpq hqp := by
    rcases hpq with h | ⟨he, hv⟩
    · rcases hqp with h2 | ⟨he2, _⟩
      · exact absurd (h.trans h2) (lt_irrefl _)
      · exact absurd h (he2 ▸ lt_irrefl _)
    · rcases hqp with h2 | ⟨he2, hv2⟩
      · exact absurd h2 (he ▸ lt_irrefl _)
      · exact Prod.ext he (le_antisymm hv hv2)

/-- Sorting is permutation-invariant: two kwargs lists that are
permutations of one another sort to the same list. -/
theorem insertionSort_eq_of_perm {k₁ k₂ : List (PyStr × PyStr)} (h : k₁.Perm k₂) :
    k₁.insertionSort kwLe = k₂.insertionSort kwLe :=
  List.eq_of_perm_of_sorted
    ((List.perm_insertionSort kwLe k₁).trans (h.trans (List.perm_insertionSort kwLe k₂).symm))
    (List.sorted_insertionSort kwLe k₁) (List.sorted_insertionSort kwLe k₂)

/-- C7: `build_key` concatenates the stringified positional arguments in
call order, then the `"name=value"` renderings of the named arguments
sorted by name, joined by the fixed separator `":"`; it is a pure
function of its arguments, so any two calls differing only in the order
in which the named arguments were supplied produce the identical key. -/
theorem build_key_deterministic_sorted (args : List PyStr)
    (k₁ k₂ : List (PyStr × PyStr)) (h : k₁.Perm k₂) :
    build_key args k₁ =
      List.intercalate [':'] (args ++ (k₁.insertionSort kwLe).map kwPart) ∧
    List.Sorted kwLe (k₁.insertionSort kwLe) ∧
    (k₁.insertionSort kwLe).Perm k₁ ∧
    build_key args k₁ = build_key args k₂ := by
  refine ⟨rfl, List.sorted_insertionSort kwLe k₁, List.perm_insertionSort kwLe k₁, ?_⟩
  unfold build_key
  rw [insertionSort_eq_of_perm h]

/-- Witness for C7 at concrete input: `build_key(op, "a", "b", x=1, y=2)`
equals `build_key(op, "a", "b", y=2, x=1)`. -/
theorem build_key_deterministic_sorted_witness :
    build_key [['o', 'p'], ['a'], ['b']]
        [(['x'], ['1']), (['y'], ['2'])] =
      build_key [['o', 'p'], ['a'], ['b']]
        [(['y'], ['2']), (['x'], ['1'])] :=
  (build_key_deterministic_sorted [['o', 'p'], ['a'], ['b']]
    [(['x'], ['1']), (['y'], ['2'])]
    [(['y'], ['2']), (['x'], ['1'])]
    (List.Perm.swap _ _ _)).2.2.2

/-! ### Injectivity of `build_key`

`":".join` erases the boundary between parts whenever a part itself
contains the separator, so `build_key` is not injective in general
(`build_key("a:b") == build_key("a", "b")`).  On argument renderings
that avoid the separator `':'` and keep `'='` out of positional parts
and names, the key determines the argument combination. -/

/-- Unique decomposition of a list into a prefix of elements satisfying
`P` and a suffix of elements violating it. -/
theorem append_unique_of_sep {α} (P : α → Prop) :
    ∀ {a₁ a₂ b₁ b₂ : List α}, (∀ x ∈ a₁, P x) → (∀ x ∈ a₂, P x) →
      (∀ x ∈ b₁, ¬ P x) → (∀ x ∈ b₂, ¬ P x) →
      a₁ ++ b₁ = a₂ ++ b₂ → a₁ = a₂ ∧ b₁ = b₂ := by
  intro a₁
  induction a₁ with
  | nil =>
    intro a₂ b₁ b₂ _ ha₂ hb₁ _ heq
    cases a₂ with
    | nil => exact ⟨rfl, heq⟩
    | cons y ys =>
      simp only [List.nil_append, List.cons_append] at heq
      subst heq
      exact absurd (ha₂ y (List.mem_cons_self y ys)) (hb₁ y (List.mem_cons_self y _))
  | cons x xs ih =>
    intro a₂ b₁ b₂ ha₁ ha₂ hb₁ hb₂ heq
    cases a₂ with
    | nil =>
      simp only [List.cons_append, List.nil_append] at heq
      subst heq
      exact absurd (ha₁ x (List.mem_cons_self x xs)) (hb₂ x (List.mem_cons_self x _))
    | cons y ys =>
      simp only [List.cons_append, List.cons.injEq] at heq
      obtain ⟨rfl, heq⟩ := heq
      obtain ⟨rfl, rfl⟩ := ih (fun z hz => ha₁ z (List.mem_cons_of_mem _ hz))
        (fun z hz => ha₂ z (List.mem_cons_of_mem _ hz)) hb₁ hb₂ heq
      exact ⟨rfl, rfl⟩

/-- The `"name=value"` rendering is injective when names avoid `'='`. -/
theorem kwPart_inj :
    ∀ {k₁ k₂ v₁ v₂ : PyStr}, '=' ∉ k₁ → '=' ∉ k₂ →
      k₁ ++ '=' :: v₁ = k₂ ++ '=' :: v₂ → k₁ = k₂ ∧ v₁ = v₂ := by
  intro k₁
  induction k₁ with
  | nil =>
    intro k₂ v₁ v₂ _ hk₂ heq
    cases k₂ with
    | nil => simpa using heq
    | cons c cs =>
      simp only [List.nil_append, List.cons_append, List.cons.injEq] at heq
      exact absurd (heq.1 ▸ List.mem_cons_self c cs) hk₂
  | cons c cs ih =>
    intro k₂ v₁ v₂ hk₁ hk₂ heq
    cases k₂ with
    | nil =>
      simp only [List.cons_append, List.nil_append, List.cons.injEq] at heq
      exact absurd (heq.1 ▸ List.mem_cons_self c cs) hk₁
    | cons d ds =>
      simp only [List.cons_append, List.cons.injEq] at heq
      obtain ⟨rfl, heq⟩ := heq
      obtain ⟨rfl, rfl⟩ := ih (fun h => hk₁ (List.mem_cons_of_mem _ h))
        (fun h => hk₂ (List.mem_cons_of_mem _ h)) heq
      exact ⟨rfl, rfl⟩

/-- Mapping `kwPart` over lists of pairs whose names avoid `'='` is
injective. -/
theorem map_kwPart_inj :
    ∀ {l₁ l₂ : List (PyStr × PyStr)}, (∀ p ∈ l₁, '=' ∉ p.1) → (∀ p ∈ l₂, '=' ∉ p.1) →
      l₁.map kwPart = l₂.map kwPart → l₁ = l₂ := by
  intro l₁
  induction l₁ with
  | nil =>
    intro l₂ _ _ heq
    cases l₂ with
    | nil => rfl
    | cons q qs => simp at heq
  | cons p ps ih =>
    intro l₂ h₁ h₂ heq
    cases l₂ with
    | nil => simp at heq
    | cons q qs =>
      simp only [List.map_cons, List.cons.injEq] at heq
      obtain ⟨hpq, hrest⟩ := heq
      obtain ⟨hfst, hsnd⟩ := kwPart_inj (h₁ p (List.mem_cons_self p ps))
        (h₂ q (List.mem_cons_self q qs)) hpq
      rw [ih (fun r hr => h₁ r (List.mem_cons_of_mem _ hr))
        (fun r hr => h₂ r (List.mem_cons_of_mem _ hr)) hrest,
        Prod.ext hfst hsnd]

/-- C8 amended: on calls that pass at least one argument and whose
stringified parts avoid the separator `':'` (and keep `'='` out of
positional renderings and out of names), `build_key` is injective: equal
key strings force equal positional-argument lists and the same
named-argument multiset. -/
theorem build_key_injective
    {a₁ a₂ : List PyStr} {k₁ k₂ : List (PyStr × PyStr)}
    (hne₁ : a₁ ≠ [] ∨ k₁ ≠ []) (hne₂ : a₂ ≠ [] ∨ k₂ ≠ [])
    (hca₁ : ∀ s ∈ a₁, ':' ∉ s ∧ '=' ∉ s) (hca₂ : ∀ s ∈ a₂, ':' ∉ s ∧ '=' ∉ s)
    (hck₁ : ∀ p ∈ k₁, ':' ∉ p.1 ∧ '=' ∉ p.1 ∧ ':' ∉ p.2)
    (hck₂ : ∀ p ∈ k₂, ':' ∉ p.1 ∧ '=' ∉ p.1 ∧ ':' ∉ p.2)
    (heq : build_key a₁ k₁ = build_key a₂ k₂) :
    a₁ = a₂ ∧ k₁.Perm k₂ := by
  have colonFree : ∀ (a : List PyStr) (k : List (PyStr × PyStr)),
      (∀ s ∈ a, ':' ∉ s ∧ '=' ∉ s) → (∀ p ∈ k, ':' ∉ p.1 ∧ '=' ∉ p.1 ∧ ':' ∉ p.2) →
      ∀ s ∈ a ++ (k.insertionSort kwLe).map kwPart, ':' ∉ s := by
    intro a k ha hk s hs
    rcases List.mem_append.1 hs with h | h
    · exact (ha s h).1
    · obtain ⟨p, hp, rfl⟩ := List.mem_map.1 h
      have hpk := hk p ((List.mem_insertionSort kwLe).1 hp)
      intro hmem
      rcases List.mem_append.1 hmem with h1 | h1
      · exact hpk.1 h1
      · rcases List.mem_cons.1 h1 with h2 | h2
        · exact absurd h2 (by decide)
        · exact hpk.2.2 h2
  have hnil : ∀ (a : List PyStr) (k : List (PyStr × PyStr)), a ≠ [] ∨ k ≠ [] →
      a ++ (k.insertionSort kwLe).map kwPart ≠ [] := by
    intro a k h hcontra
    rcases List.append_eq_nil.1 hcontra with ⟨ha, hm⟩
    rcases h with h | h
    · exact h ha
    · have hsn : k.insertionSort kwLe = [] := List.map_eq_nil_iff.1 hm
      have hp := List.perm_insertionSort kwLe k
      rw [hsn] at hp
      exact h hp.nil_eq.symm
  have split₁ := List.splitOn_intercalate
    (a₁ ++ (k₁.insertionSort kwLe).map kwPart) ':'
    (colonFree a₁ k₁ hca₁ hck₁) (hnil a₁ k₁ hne₁)
  have split₂ := List.splitOn_intercalate
    (a₂ ++ (k₂.insertionSort kwLe).map kwPart) ':'
    (colonFree a₂ k₂ hca₂ hck₂) (hnil a₂ k₂ hne₂)
  have hparts : a₁ ++ (k₁.insertionSort kwLe).map kwPart
      = a₂ ++ (k₂.insertionSort kwLe).map kwPart := by
    rw [← split₁, ← split₂]
    unfold build_key at heq
    rw [heq]
  have hEqFree : ∀ (a : List PyStr), (∀ s ∈ a, ':' ∉ s ∧ '=' ∉ s) →
      ∀ s ∈ a, ¬ ('=' ∈ s) := fun a ha s hs => (ha s hs).2
  have hEqIn : ∀ (k : List (PyStr × PyStr)),
      ∀ s ∈ (k.insertionSort kwLe).map kwPart, ¬ ¬ ('=' ∈ s) := by
    intro k s hs
    obtain ⟨p, _, rfl⟩ := List.mem_map.1 hs
    exact fun h => h (List.mem_append.2 (Or.inr (List.mem_cons_self _ _)))
  obtain ⟨hargs, hmaps⟩ := append_unique_of_sep (fun s => ¬ ('=' ∈ s))
    (hEqFree a₁ hca₁) (hEqFree a₂ hca₂) (hEqIn k₁) (hEqIn k₂) hparts
  refine ⟨hargs, ?_⟩
  have hsorts : k₁.insertionSort kwLe = k₂.insertionSort kwLe :=
    map_kwPart_inj
      (fun p hp => (hck₁ p ((List.mem_insertionSort kwLe).1 hp)).2.1)
      (fun p hp => (hck₂ p ((List.mem_insertionSort kwLe).1 hp)).2.1) hmaps
  exact (List.perm_insertionSort kwLe k₁).symm.trans
    (hsorts ▸ List.perm_insertionSort kwLe k₂)

/-- C8 counterexample: the claim as stated is false: the two
semantically distinct calls `build_key("a:b")` and `build_key("a", "b")`
produce the identical key string `"a:b"`. -/
theorem build_key_collision :
    build_key [['a', ':', 'b']] [] = build_key [['a'], ['b']] [] ∧
      ([['a', ':', 'b']] : List PyStr) ≠ [['a'], ['b']] := by
  constructor
  · rfl
  · decide

/-- Witness for C8 (amended): concrete separator-free calls; equal keys
recover the arguments. -/
theorem build_key_injective_witness :
    ([['o', 'p']] : List PyStr) = [['o', 'p']] ∧
      List.Perm [((['x'] : PyStr), (['1'] : PyStr))] [(['x'], ['1'])] :=
  build_key_injective (Or.inl (by decide)) (Or.inl (by decide))
    (by decide) (by decide) (by decide) (by decide) rfl

/-! ## Rate limiter (`crypto_mcp_server/rate_limiter.py`)

`RateLimiter` holds `self._requests : Dict[str, deque]`.  All public
operations touch only the entry of the one key they are given, so the
state is modelled per key: `Window = Option (List ℚ)`, where `none`
means the key is not in the dict and the list is the deque, front
first.  `max_requests` and `time_window` are Python ints (defaults 10
and 60, overridden only by non-negative config values), modelled as
`ℕ`; timestamps from `time.time()` are modelled as `ℚ`. -/

structure RLConfig where
  max_requests : ℕ
  time_window : ℕ

/-- Slot of one key in `self._requests`: `none` = key absent. -/
abbrev Window := Option (List ℚ)

/-- Embeds `RateLimiter._clean_old_requests` (rate_limiter.py lines 31-38):
pops from the left while the front timestamp is `< now - time_window`. -/
def clean_old_requests (cfg : RLConfig) (w : Window) (now : ℚ) : Window :=
  match w with
  | none => none
  | some l => some (l.dropWhile (fun t => decide (t < now - (cfg.time_window : ℚ))))

/-- Embeds `if key not in self._requests: self._requests[key] = deque()`. -/
def initSlot (w : Window) : Window :=
  some (w.getD [])

/-- Embeds `RateLimiter.check_limit` (rate_limiter.py lines 40-60): initialises
the slot of the key, purges stale timestamps, and returns whether the window
is strictly below `max_requests`.  It returns the updated slot alongside
the boolean because the purge mutates the dict. -/
def check_limit (cfg : RLConfig) (w : Window) (now : ℚ) : Bool × Window :=
  let w2 := clean_old_requests cfg (initSlot w) now
  (decide ((w2.getD []).length < cfg.max_requests), w2)

/-- The `RateLimitError` raised by `record_request`, carrying its
formatted message. -/
structure RateLimitError where
  message : String
deriving DecidableEq

/-- The f-string
`f"Rate limit exceeded for {key}. Maximum {max_requests} requests per {time_window}s"`. -/
def rateLimitMessage (key : String) (cfg : RLConfig) : String :=
  "Rate limit exceeded for " ++ key ++ ". Maximum "
    ++ toString cfg.max_requests ++ " requests per "
    ++ toString cfg.time_window ++ "s"

/-- A concrete limiter key used in witnesses. -/
def binance : String :=
  "binance"

/-- Another concrete limiter key used in witnesses. -/
def kraken : String :=
  "kraken"

/-- Outcome of `record_request`: normal return or a raised
`RateLimitError`. -/
inductive RecordResult where
  | ok
  | err (e : RateLimitError)
deriving DecidableEq

/-- Embeds `RateLimiter.record_request` (rate_limiter.py lines 62-87).  `now`
is the `time.time()` read inside `check_limit`, `now₂` the second read
before the append (the code reads the clock twice).  The returned
`Window` is the state of the slot of the key after the call, on both the
normal and the raising path. -/
def record_request (cfg : RLConfig) (key : String) (w : Window) (now now₂ : ℚ) :
    RecordResult × Window :=
  let c := check_limit cfg w now
  if c.1 then
    let w2 := initSlot c.2
    (RecordResult.ok, some (w2.getD [] ++ [now₂]))
  else
    (RecordResult.err ⟨rateLimitMessage key cfg⟩, c.2)

/-- Embeds `RateLimiter.get_remaining_requests` (rate_limiter.py lines 89-104):
for an absent key returns `max_requests` without touching the dict,
otherwise purges and returns `max(0, max_requests - len(window))`. -/
def get_remaining_requests (cfg : RLConfig) (w : Window) (now : ℚ) : ℤ × Window :=
  match w with
  | none => ((cfg.max_requests : ℤ), none)
  | some l =>
    let l2 := l.dropWhile (fun t => decide (t < now - (cfg.time_window : ℚ)))
    (max 0 ((cfg.max_requests : ℤ) - l2.length), some l2)

/-- Embeds `RateLimiter.reset` (rate_limiter.py lines 106-110): clears the
deque of the key if the key is present. -/
def rlReset (w : Window) : Window :=
  match w with
  | none => none
  | some _ => some []

/-! ### Rate limiter lemmas -/

/-- On a sorted window, popping stale timestamps from the left removes
exactly the timestamps below the cutoff. -/
theorem dropWhile_lt_eq_filter_of_sorted {l : List ℚ} {c : ℚ}
    (hs : List.Sorted (· ≤ ·) l) :
    l.dropWhile (fun t => decide (t < c)) = l.filter (fun t => decide (c ≤ t)) := by
  induction l with
  | nil => rfl
  | cons a tl ih =>
    by_cases h : a < c
    · have hna : ¬ c ≤ a := not_le.2 h
      simp only [List.dropWhile_cons, List.filter_cons, h, hna]
      simpa using ih hs.of_cons
    · have hca : c ≤ a := not_lt.1 h
      have : tl.filter (fun t => decide (c ≤ t)) = tl :=
        List.filter_eq_self.2 fun b hb => decide_eq_true
          (hca.trans (List.rel_of_sorted_cons hs b hb))
      simp [List.dropWhile_cons, List.filter_cons, h, hca, this]

/-- Appending a late-enough timestamp keeps a window sorted. -/
theorem sorted_append_last {l : List ℚ} {x : ℚ}
    (hs : List.Sorted (· ≤ ·) l) (hx : ∀ t ∈ l, t ≤ x) :
    List.Sorted (· ≤ ·) (l ++ [x]) := by
  rw [List.Sorted, List.pairwise_append]
  exact ⟨hs, List.sorted_singleton x, fun a ha b hb => (List.mem_singleton.1 hb) ▸ hx a ha⟩

theorem getD_initSlot (w : Window) : (initSlot w).getD [] = w.getD [] := by
  cases w <;> rfl

/-- The window invariant maintained by the rate limiter for each key:
timestamps are in append order (sorted), none lies in the future, and
the window never holds more than `max_requests` entries. -/
def WindowWF (cfg : RLConfig) (w : Window) (now : ℚ) : Prop :=
  List.Sorted (· ≤ ·) (w.getD []) ∧ (∀ t ∈ w.getD [], t ≤ now) ∧
    (w.getD []).length ≤ cfg.max_requests

/-- A purged window keeps the invariant and retains only timestamps at
or above the cutoff `now - time_window`. -/
theorem clean_wf {cfg : RLConfig} {w : Window} {now : ℚ}
    (hwf : WindowWF cfg w now) :
    WindowWF cfg (clean_old_requests cfg (initSlot w) now) now ∧
      ∀ t ∈ (clean_old_requests cfg (initSlot w) now).getD [],
        now - (cfg.time_window : ℚ) ≤ t := by
  obtain ⟨hs, hle, hcard⟩ := hwf
  cases w with
  | none =>
    refine ⟨⟨List.sorted_nil, ?_, ?_⟩, ?_⟩ <;> simp [clean_old_requests, initSlot]
  | some l =>
    simp only [Option.getD_some] at hs hle hcard
    have hsub : List.Sublist
        (l.dropWhile (fun t => decide (t < now - (cfg.time_window : ℚ)))) l :=
      List.dropWhile_sublist _
    refine ⟨⟨List.Pairwise.sublist hsub hs, fun t ht => hle t (hsub.mem ht),
      le_trans hsub.length_le hcard⟩, fun t ht => ?_⟩
    simp only [clean_old_requests, initSlot, Option.getD_some] at ht
    rw [dropWhile_lt_eq_filter_of_sorted hs] at ht
    exact of_decide_eq_true (List.mem_filter.1 ht).2

/-- C2: `check_limit(key)` purges the timestamps older than
`now - time_window` from the window of the key, returns `true` iff the purged
window is strictly shorter than `max_requests`, and appends nothing: every
timestamp in the post-call window was already in the pre-call window.
`get_remaining_requests` likewise only purges, and returns
`max(0, max_requests - len(window))`.  Both functions are total in the
model, mirroring that neither contains a `raise`: no `RateLimitError`
(or any error) can come out of them. -/
theorem check_limit_spec (cfg : RLConfig) (w : Window) (now : ℚ)
    (hs : List.Sorted (· ≤ ·) (w.getD [])) :
    (check_limit cfg w now).2 =
        some ((w.getD []).filter (fun t => decide (now - (cfg.time_window : ℚ) ≤ t))) ∧
    ((check_limit cfg w now).1 = true ↔
        (((check_limit cfg w now).2).getD []).length < cfg.max_requests) ∧
    (∀ t ∈ ((check_limit cfg w now).2).getD [], t ∈ w.getD []) ∧
    (∀ t ∈ ((get_remaining_requests cfg w now).2).getD [], t ∈ w.getD []) ∧
    (get_remaining_requests cfg w now).1 =
        max 0 ((cfg.max_requests : ℤ)
          - (((get_remaining_requests cfg w now).2).getD []).length) := by
  have hdrop : ∀ l : List ℚ, List.Sorted (· ≤ ·) l →
      l.dropWhile (fun t => decide (t < now - (cfg.time_window : ℚ)))
        = l.filter (fun t => decide (now - (cfg.time_window : ℚ) ≤ t)) :=
    fun l hl => dropWhile_lt_eq_filter_of_sorted hl
  cases w with
  | none =>
    refine ⟨by simp [check_limit, clean_old_requests, initSlot], ?_, ?_, ?_, ?_⟩
    · simp [check_limit, clean_old_requests, initSlot]
    · simp [check_limit, clean_old_requests, initSlot]
    · simp [get_remaining_requests]
    · simp [get_remaining_requests]
  | some l =>
    have hfl := hdrop l hs
    have hsub : List.Sublist
        (l.dropWhile (fun t => decide (t < now - (cfg.time_window : ℚ)))) l :=
      List.dropWhile_sublist _
    refine ⟨?_, ?_, ?_, ?_, ?_⟩
    · simp [check_limit, clean_old_requests, initSlot, hfl]
    · simp [check_limit, clean_old_requests, initSlot]
    · intro t ht
      simp only [check_limit, clean_old_requests, initSlot, Option.getD_some] at ht
      exact hsub.mem ht
    · intro t ht
      simp only [get_remaining_requests, Option.getD_some] at ht
      exact hsub.mem ht
    · simp [get_remaining_requests]

/-- Witness for C2 at a concrete window: `max_requests = 2`,
`time_window = 60`, window `[10, 20]`, checked at time 70 (cutoff 10). -/
theorem check_limit_spec_witness :
    (check_limit ⟨2, 60⟩ (some [10, 20]) 70).2 =
        some (([10, 20] : List ℚ).filter (fun t => decide ((70 : ℚ) - (60 : ℚ) ≤ t))) ∧
    ((check_limit ⟨2, 60⟩ (some [10, 20]) 70).1 = true ↔
        (((check_limit ⟨2, 60⟩ (some [10, 20]) 70).2).getD []).length < 2) ∧
    (∀ t ∈ ((check_limit ⟨2, 60⟩ (some [10, 20]) 70).2).getD [],
        t ∈ (some [10, 20] : Window).getD []) ∧
    (∀ t ∈ ((get_remaining_requests ⟨2, 60⟩ (some [10, 20]) 70).2).getD [],
        t ∈ (some [10, 20] : Window).getD []) ∧
    (get_remaining_requests ⟨2, 60⟩ (some [10, 20]) 70).1 =
        max 0 ((2 : ℤ)
          - (((get_remaining_requests ⟨2, 60⟩ (some [10, 20]) 70).2).getD []).length) :=
  check_limit_spec ⟨2, 60⟩ (some [10, 20]) 70 (by decide)

/-- C1: whenever `record_request(key)` raises `RateLimitError`, the
error message is the f-string naming the key, the configured
`max_requests` and the `time_window`; no timestamp is appended (every
timestamp in the post-call window was already in the pre-call window);
and `get_remaining_requests(key)` evaluated at the same instant returns
the same value after the failed call as before it. -/
theorem record_request_reject (cfg : RLConfig) (key : String) (w : Window)
    (now now₂ : ℚ) (e : RateLimitError)
    (h : (record_request cfg key w now now₂).1 = RecordResult.err e) :
    e.message = "Rate limit exceeded for " ++ key ++ ". Maximum "
        ++ toString cfg.max_requests ++ " requests per "
        ++ toString cfg.time_window ++ "s" ∧
    (∀ t ∈ ((record_request cfg key w now now₂).2).getD [], t ∈ w.getD []) ∧
    (get_remaining_requests cfg (record_request cfg key w now now₂).2 now).1 =
      (get_remaining_requests cfg w now).1 := by
  by_cases hc : (check_limit cfg w now).1
  · simp [record_request, hc] at h
  · have hstate : (record_request cfg key w now now₂).2 = (check_limit cfg w now).2 := by
      simp [record_request, hc]
    have hmsg : e = ⟨rateLimitMessage key cfg⟩ := by
      have h2 := h
      simp [record_request, hc] at h2
      exact h2.symm
    refine ⟨by rw [hmsg]; rfl, ?_, ?_⟩
    · intro t ht
      rw [hstate] at ht
      cases w with
      | none => simp [check_limit, clean_old_requests, initSlot] at ht
      | some l =>
        simp only [check_limit, clean_old_requests, initSlot, Option.getD_some] at ht
        exact (List.dropWhile_sublist _).mem ht
    · rw [hstate]
      cases w with
      | none =>
        simp [check_limit, clean_old_requests, initSlot, get_remaining_requests]
      | some l =>
        simp only [check_limit, clean_old_requests, initSlot, Option.getD_some,
          get_remaining_requests, List.dropWhile_idempotent]

/-- Witness for C1: `max_requests = 1`, `time_window = 60`, window
`[100]`, attempt at time 100 — the call is rejected, the message is the
formatted one, nothing is appended, and the remaining count is
unchanged. -/
theorem record_request_reject_witness :
    (record_request ⟨1, 60⟩ binance (some [100]) 100 100).1 =
        RecordResult.err ⟨rateLimitMessage binance ⟨1, 60⟩⟩ ∧
    ((⟨rateLimitMessage binance ⟨1, 60⟩⟩ : RateLimitError).message =
        "Rate limit exceeded for " ++ binance ++ ". Maximum "
          ++ toString (1 : ℕ) ++ " requests per " ++ toString (60 : ℕ) ++ "s" ∧
      (∀ t ∈ ((record_request ⟨1, 60⟩ binance (some [100]) 100 100).2).getD [],
        t ∈ (some [100] : Window).getD []) ∧
      (get_remaining_requests ⟨1, 60⟩
          (record_request ⟨1, 60⟩ binance (some [100]) 100 100).2 100).1 =
        (get_remaining_requests ⟨1, 60⟩ (some [100]) 100).1) :=
  ⟨by norm_num [record_request, check_limit, clean_old_requests, initSlot],
    record_request_reject ⟨1, 60⟩ binance (some [100]) 100 100
      ⟨rateLimitMessage binance ⟨1, 60⟩⟩
      (by norm_num [record_request, check_limit, clean_old_requests, initSlot])⟩

/-- C9: the per-key window invariant survives every rate-limiter
operation: starting from a well-formed window (append-ordered, no
future timestamps, `len(window) <= max_requests`) the window left
behind by `check_limit`, `record_request`, `get_remaining_requests`
and `reset` is well formed again (for `record_request` at the later
clock reading `now₂`), and after the lazy purge of each operation every
retained pre-existing timestamp lies within `[now - time_window, now]`. -/
theorem rate_limiter_window_invariant (cfg : RLConfig) (key : String)
    (w : Window) (now now₂ : ℚ) (hwf : WindowWF cfg w now) (h12 : now ≤ now₂) :
    WindowWF cfg (check_limit cfg w now).2 now ∧
    (∀ t ∈ ((check_limit cfg w now).2).getD [],
      now - (cfg.time_window : ℚ) ≤ t ∧ t ≤ now) ∧
    WindowWF cfg (record_request cfg key w now now₂).2 now₂ ∧
    WindowWF cfg (get_remaining_requests cfg w now).2 now ∧
    (∀ t ∈ ((get_remaining_requests cfg w now).2).getD [],
      now - (cfg.time_window : ℚ) ≤ t ∧ t ≤ now) ∧
    WindowWF cfg (rlReset w) now := by
  obtain ⟨hclean, hlow⟩ := clean_wf hwf
  have hcheck2 : (check_limit cfg w now).2 = clean_old_requests cfg (initSlot w) now := rfl
  obtain ⟨hcs, hcle, hccard⟩ := hclean
  refine ⟨⟨hcs, hcle, hccard⟩, ?_, ?_, ?_, ?_, ?_⟩
  · exact fun t ht => ⟨hlow t ht, hcle t ht⟩
  · by_cases hc : (check_limit cfg w now).1
    · have hstate : (record_request cfg key w now now₂).2 =
          some (((check_limit cfg w now).2).getD [] ++ [now₂]) := by
        simp [record_request, hc, initSlot, getD_initSlot]
      have hlen : (((check_limit cfg w now).2).getD []).length < cfg.max_requests := by
        simpa [check_limit] using hc
      rw [hstate]
      refine ⟨?_, ?_, ?_⟩
      · exact sorted_append_last hcs fun t ht => (hcle t ht).trans h12
      · intro t ht
        simp only [Option.getD_some, List.mem_append, List.mem_singleton] at ht
        rcases ht with ht | rfl
        · exact (hcle t ht).trans h12
        · exact le_refl t
      · simp only [Option.getD_some, List.length_append, List.length_singleton]
        omega
    · have hstate : (record_request cfg key w now now₂).2 = (check_limit cfg w now).2 := by
        simp [record_request, hc]
      rw [hstate]
      exact ⟨hcs, fun t ht => (hcle t ht).trans h12, hccard⟩
  · cases w with
    | none => exact ⟨List.sorted_nil, by simp [get_remaining_requests], by
        simp [get_remaining_requests]⟩
    | some l =>
      have : (get_remaining_requests cfg (some l) now).2
          = clean_old_requests cfg (initSlot (some l)) now := rfl
      rw [this]
      exact ⟨hcs, hcle, hccard⟩
  · cases w with
    | none => simp [get_remaining_requests]
    | some l =>
      have : (get_remaining_requests cfg (some l) now).2
          = clean_old_requests cfg (initSlot (some l)) now := rfl
      rw [this]
      exact fun t ht => ⟨hlow t ht, hcle t ht⟩
  · cases w with
    | none => exact ⟨List.sorted_nil, by simp [rlReset], by simp [rlReset]⟩
    | some l => exact ⟨List.sorted_nil, by simp [rlReset], by simp [rlReset]⟩

/-- Witness for C9: `max_requests = 2`, `time_window = 60`, window
`[10, 65]` observed at time 70, with the recording clock read again at
time 71. -/
theorem rate_limiter_window_invariant_witness :
    WindowWF ⟨2, 60⟩ (check_limit ⟨2, 60⟩ (some [10, 65]) 70).2 70 ∧
    (∀ t ∈ ((check_limit ⟨2, 60⟩ (some [10, 65]) 70).2).getD [],
      (70 : ℚ) - ((60 : ℕ) : ℚ) ≤ t ∧ t ≤ 70) ∧
    WindowWF ⟨2, 60⟩ (record_request ⟨2, 60⟩ kraken (some [10, 65]) 70 71).2 71 ∧
    WindowWF ⟨2, 60⟩ (get_remaining_requests ⟨2, 60⟩ (some [10, 65]) 70).2 70 ∧
    (∀ t ∈ ((get_remaining_requests ⟨2, 60⟩ (some [10, 65]) 70).2).getD [],
      (70 : ℚ) - ((60 : ℕ) : ℚ) ≤ t ∧ t ≤ 70) ∧
    WindowWF ⟨2, 60⟩ (rlReset (some [10, 65])) 70 :=
  rate_limiter_window_invariant ⟨2, 60⟩ kraken (some [10, 65]) 70 71
    ⟨by decide, by norm_num, by norm_num⟩ (by norm_num)

/-! ## Cache (`crypto_mcp_server/cache.py`)

`CacheManager` wraps a `cachetools.TTLCache(maxsize, ttl)`.  The store
is modelled from the documented behaviour of the library as an
insertion-ordered list of entries, each carrying its absolute expiry
`insertion_time + ttl`: an entry is live while `now < expires`;
`__setitem__` first drops expired entries, then (for a new key) evicts
oldest-first until there is room.  Stored values are `Option α`, with
`Option.none` modelling Python `None` (a storable value that
`CacheManager.get` cannot distinguish from absence). -/

/-- One `TTLCache` entry. -/
structure Entry (α : Type) where
  key : PyStr
  val : Option α
  expires : ℚ
deriving DecidableEq

/-- Models `TTLCache.expire`: drop entries whose expiry has passed
(`expires <= now`). -/
def ttlExpire {α : Type} (l : List (Entry α)) (now : ℚ) : List (Entry α) :=
  l.filter (fun e => decide (now < e.expires))

/-- Models `TTLCache.get(key)` at time `now`: the stored value if the key is
present and not expired, `none` (missing) otherwise.  Expired entries
behave as missing. -/
def ttlGet {α : Type} (l : List (Entry α)) (k : PyStr) (now : ℚ) :
    Option (Option α) :=
  match l.find? (fun e => decide (e.key = k)) with
  | some e => if now < e.expires then some e.val else none
  | none => none

/-- Models `TTLCache.__setitem__`: expire, then overwrite in place if the key
is live, else evict oldest-first until the new entry fits, and append
it with expiry `now + ttl`. -/
def ttlSet {α : Type} (l : List (Entry α)) (k : PyStr) (v : Option α)
    (now : ℚ) (maxsize : ℕ) (ttl : ℚ) : List (Entry α) :=
  let l1 := ttlExpire l now
  if (l1.find? (fun e => decide (e.key = k))).isSome then
    l1.map (fun e => if e.key = k then ⟨k, v, now + ttl⟩ else e)
  else
    (l1.drop (l1.length + 1 - maxsize)) ++ [⟨k, v, now + ttl⟩]

/-- Embeds `CacheManager` (cache.py lines 16-132): the `TTLCache` plus the
`{hits, misses, errors}` counters. -/
structure CacheManager (α : Type) where
  store : List (Entry α)
  maxsize : ℕ
  ttl : ℕ
  hits : ℕ
  misses : ℕ
  errors : ℕ
deriving DecidableEq

/-- Embeds `CacheManager.__init__(maxsize, ttl)` (cache.py lines 19-29). -/
def mkCacheManager (α : Type) (maxsize ttl : ℕ) : CacheManager α :=
  ⟨[], maxsize, ttl, 0, 0, 0⟩

/-- Embeds `CacheManager.get` (cache.py lines 31-53): reads
`self._cache.get(key)` and counts a hit iff the result
`is not None`. -/
def CacheManager.get {α : Type} (m : CacheManager α) (k : PyStr) (now : ℚ) :
    Option α × CacheManager α :=
  let value : Option α := (ttlGet m.store k now).join
  if value.isSome then
    (value, { m with hits := m.hits + 1 })
  else
    (value, { m with misses := m.misses + 1 })

/-- Embeds `CacheManager.set` (cache.py lines 55-69). -/
def CacheManager.set {α : Type} (m : CacheManager α) (k : PyStr) (v : Option α)
    (now : ℚ) : CacheManager α :=
  { m with store := ttlSet m.store k v now m.maxsize (m.ttl : ℚ) }

/-- Python `round(x, 2)` on the exact rational: round half to even at
two decimal places. -/
def pyRound2 (q : ℚ) : ℚ :=
  let x := q * 100
  let n := ⌊x⌋
  let f := x - (n : ℚ)
  let r : ℤ :=
    if f < 1/2 then n else if 1/2 < f then n + 1 else if n % 2 = 0 then n else n + 1
  (r : ℚ) / 100

/-- The dictionary returned by `CacheManager.get_stats`. -/
structure CacheStats where
  hits : ℕ
  misses : ℕ
  errors : ℕ
  total_requests : ℕ
  hit_rate_percent : ℚ
  current_size : ℕ
  max_size : ℕ
deriving DecidableEq

/-- Embeds `CacheManager.get_stats` (cache.py lines 97-117): a pure read of the
counters; `hit_rate_percent = round(hits / total * 100, 2)` when
`total > 0`, else `0`. -/
def CacheManager.get_stats {α : Type} (m : CacheManager α) : CacheStats :=
  let total := m.hits + m.misses
  let rate : ℚ := if 0 < total then (m.hits : ℚ) / (total : ℚ) * 100 else 0
  ⟨m.hits, m.misses, m.errors, total, pyRound2 rate, m.store.length, m.maxsize⟩

/-- The cache key the `cached` decorator builds:
`f"{key_prefix}:{func.__name__}:{cache_manager.build_key(*args, **kwargs)}"`
(cache.py lines 155-157 and 173-175). -/
def wrapKey (kpfx fname : PyStr) (args : List PyStr)
    (kwargs : List (PyStr × PyStr)) : PyStr :=
  kpfx ++ ':' :: fname ++ ':' :: build_key args kwargs

/-- Embeds the `sync_wrapper` of `cached` (cache.py lines 171-186); the
`async_wrapper` (lines 153-168) is line-for-line identical up to
`await`.  `fetchResult` is the outcome the wrapped function would
produce if called; the returned `Bool` records whether the
`result = func(*args, **kwargs)` line ran. -/
def sync_wrapper {α ε : Type} (kpfx fname : PyStr) (m : CacheManager α)
    (args : List PyStr) (kwargs : List (PyStr × PyStr))
    (fetchResult : Except ε (Option α)) (now : ℚ) :
    Except ε (Option α) × Bool × CacheManager α :=
  let r := m.get (wrapKey kpfx fname args kwargs) now
  match r.1 with
  | some x => (Except.ok (some x), false, r.2)
  | none =>
    match fetchResult with
    | Except.error e => (Except.error e, true, r.2)
    | Except.ok result =>
      (Except.ok result, true, (r.2).set (wrapKey kpfx fname args kwargs) result now)

/-! ### Cache lemmas -/

/-- Overwriting the (present) key in place leaves it as the first match. -/
theorem find?_map_overwrite {α : Type} (k : PyStr) (v : Option α) (x : ℚ) :
    ∀ l : List (Entry α), (l.find? (fun e => decide (e.key = k))).isSome →
      (l.map (fun e => if e.key = k then (⟨k, v, x⟩ : Entry α) else e)).find?
          (fun e => decide (e.key = k)) = some ⟨k, v, x⟩ := by
  intro l
  induction l with
  | nil => intro h; simp [List.find?] at h
  | cons a l ih =>
    intro h
    by_cases ha : a.key = k
    · simp [List.find?_cons, ha]
    · have hd : (decide (a.key = k)) = false := decide_eq_false ha
      simp only [List.find?_cons, hd] at h
      simp only [List.map_cons, if_neg ha, List.find?_cons, hd]
      exact ih h

/-- After `TTLCache.__setitem__`, looking the key up finds exactly the
fresh entry `⟨k, v, now + ttl⟩`. -/
theorem find?_ttlSet {α : Type} (l : List (Entry α)) (k : PyStr) (v : Option α)
    (now : ℚ) (maxsize : ℕ) (ttl : ℚ) :
    (ttlSet l k v now maxsize ttl).find? (fun e => decide (e.key = k))
      = some ⟨k, v, now + ttl⟩ := by
  unfold ttlSet
  by_cases h : ((ttlExpire l now).find? (fun e => decide (e.key = k))).isSome
  · simp only [h, if_true]
    exact find?_map_overwrite k v (now + ttl) (ttlExpire l now) h
  · have hnone : (ttlExpire l now).find? (fun e => decide (e.key = k)) = none :=
      Option.not_isSome_iff_eq_none.1 h
    have hdrop : ((ttlExpire l now).drop
        ((ttlExpire l now).length + 1 - maxsize)).find?
          (fun e => decide (e.key = k)) = none :=
      List.find?_eq_none.2 fun e he =>
        List.find?_eq_none.1 hnone e ((List.drop_sublist _ _).mem he)
    simp [hnone, hdrop, List.find?_append, List.find?]

/-- Reading via `CacheManager.get` never touches the store. -/
theorem get_store_eq {α : Type} (m : CacheManager α) (k : PyStr) (now : ℚ) :
    ((m.get k now).2).store = m.store := by
  simp only [CacheManager.get]
  split <;> rfl

/-- Writing via `CacheManager.set` keeps the configuration and the counters. -/
theorem set_fields_eq {α : Type} (m : CacheManager α) (k : PyStr) (v : Option α)
    (now : ℚ) :
    (m.set k v now).maxsize = m.maxsize ∧ (m.set k v now).ttl = m.ttl ∧
      (m.set k v now).hits = m.hits ∧ (m.set k v now).misses = m.misses :=
  ⟨rfl, rfl, rfl, rfl⟩

/-- C3: a value stored by `set` at time `t` is returned by `get(key)` at
every time strictly before `t + ttl`; at every time at or after
`t + ttl` the entry behaves as absent: `get` returns `None` and counts a
miss (hits unchanged). -/
theorem cache_set_get {α : Type} (m : CacheManager α) (k : PyStr) (v : Option α)
    (t tq : ℚ) :
    (tq < t + (m.ttl : ℚ) → ((m.set k v t).get k tq).1 = v) ∧
    (t + (m.ttl : ℚ) ≤ tq →
      ((m.set k v t).get k tq).1 = none ∧
      ((m.set k v t).get k tq).2.misses = m.misses + 1 ∧
      ((m.set k v t).get k tq).2.hits = m.hits) := by
  have hfind : List.find? (fun e => decide (e.key = k))
        (ttlSet m.store k v t m.maxsize (m.ttl : ℚ))
      = some ⟨k, v, t + (m.ttl : ℚ)⟩ :=
    find?_ttlSet m.store k v t m.maxsize (m.ttl : ℚ)
  constructor
  · intro hlt
    by_cases hv : v.isSome
    · simp [CacheManager.get, CacheManager.set, ttlGet, hfind, hlt, hv]
    · simp [CacheManager.get, CacheManager.set, ttlGet, hfind, hlt, hv]
  · intro hge
    have hnlt : ¬ tq < t + (m.ttl : ℚ) := not_lt.2 hge
    simp [CacheManager.get, CacheManager.set, ttlGet, hfind, hnlt]

/-- Witness for C3: `maxsize = 10`, `ttl = 60`, `set("a", 1)` at time 0,
read back at time 59 (hit, value 1) and at time 60 (absent, miss). -/
theorem cache_set_get_witness :
    (((mkCacheManager ℕ 10 60).set ['a'] (some 1) 0).get ['a'] 59).1
        = some 1 ∧
    (((mkCacheManager ℕ 10 60).set ['a'] (some 1) 0).get ['a'] 60).1 = none ∧
    (((mkCacheManager ℕ 10 60).set ['a'] (some 1) 0).get ['a'] 60).2.misses
        = (mkCacheManager ℕ 10 60).misses + 1 ∧
    (((mkCacheManager ℕ 10 60).set ['a'] (some 1) 0).get ['a'] 60).2.hits
        = (mkCacheManager ℕ 10 60).hits :=
  ⟨(cache_set_get (mkCacheManager ℕ 10 60) ['a'] (some 1) 0 59).1
      (by norm_num [mkCacheManager]),
   (cache_set_get (mkCacheManager ℕ 10 60) ['a'] (some 1) 0 60).2
      (by norm_num [mkCacheManager])⟩

/-! ### Capacity (C4) -/

/-- Run a sequence of `set` calls. -/
def applySets {α : Type} (m : CacheManager α) (ops : List (PyStr × Option α × ℚ)) :
    CacheManager α :=
  ops.foldl (fun acc p => acc.set p.1 p.2.1 p.2.2) m

theorem applySets_maxsize {α : Type} (ops : List (PyStr × Option α × ℚ)) :
    ∀ m : CacheManager α, (applySets m ops).maxsize = m.maxsize := by
  induction ops with
  | nil => intro m; rfl
  | cons p ps ih => intro m; exact ih (m.set p.1 p.2.1 p.2.2)

/-- One `set` keeps the store within capacity. -/
theorem length_ttlSet_le {α : Type} (l : List (Entry α)) (k : PyStr) (v : Option α)
    (now : ℚ) (maxsize : ℕ) (ttl : ℚ) (h0 : 0 < maxsize)
    (hl : l.length ≤ maxsize) :
    (ttlSet l k v now maxsize ttl).length ≤ maxsize := by
  have hexp : (ttlExpire l now).length ≤ l.length := List.length_filter_le _ _
  unfold ttlSet
  by_cases h : ((ttlExpire l now).find? (fun e => decide (e.key = k))).isSome
  · simp only [h, if_true, List.length_map]
    exact hexp.trans hl
  · have hnone : (ttlExpire l now).find? (fun e => decide (e.key = k)) = none :=
      Option.not_isSome_iff_eq_none.1 h
    simp only [hnone, Option.isSome_none, Bool.false_eq_true, if_false,
      List.length_append, List.length_drop, List.length_singleton]
    omega

/-- C4: starting from a manager whose store is within its capacity
(in particular a freshly constructed one), the store holds at most
`max_size` entries after every `set` call of any sequence; and a `set`
of a key absent from the live store while the live store is exactly at
capacity evicts the oldest live entry before appending the new one, so
the size stays at `max_size`. -/
theorem cache_capacity {α : Type} (m : CacheManager α)
    (ops : List (PyStr × Option α × ℚ)) (k : PyStr) (v : Option α) (now : ℚ)
    (h0 : 0 < m.maxsize) (hm : m.store.length ≤ m.maxsize) :
    (∀ n : ℕ, (applySets m (ops.take n)).store.length ≤ m.maxsize) ∧
    ((ttlExpire m.store now).length = m.maxsize →
      (ttlExpire m.store now).find? (fun e => decide (e.key = k)) = none →
      (m.set k v now).store
          = (ttlExpire m.store now).drop 1 ++ [⟨k, v, now + (m.ttl : ℚ)⟩] ∧
        (m.set k v now).store.length = m.maxsize) := by
  constructor
  · have hgen : ∀ (l : List (PyStr × Option α × ℚ)) (m0 : CacheManager α),
        0 < m0.maxsize → m0.store.length ≤ m0.maxsize →
        (applySets m0 l).store.length ≤ m0.maxsize := by
      intro l
      induction l with
      | nil => intro m0 _ h; exact h
      | cons p ps ih =>
        intro m0 h0m hm0
        have hstep : (m0.set p.1 p.2.1 p.2.2).store.length ≤ m0.maxsize :=
          length_ttlSet_le m0.store p.1 p.2.1 p.2.2 m0.maxsize (m0.ttl : ℚ) h0m hm0
        exact ih (m0.set p.1 p.2.1 p.2.2) h0m hstep
    intro n
    exact hgen (ops.take n) m h0 hm
  · intro hfull habsent
    have hiss : ((ttlExpire m.store now).find? (fun e => decide (e.key = k))).isSome
        = false := by
      rw [habsent]; rfl
    have hstore : (m.set k v now).store
        = (ttlExpire m.store now).drop ((ttlExpire m.store now).length + 1 - m.maxsize)
          ++ [⟨k, v, now + (m.ttl : ℚ)⟩] := by
      show ttlSet m.store k v now m.maxsize (m.ttl : ℚ) = _
      unfold ttlSet
      simp only [hiss, Bool.false_eq_true, if_false]
    rw [hfull] at hstore
    have hone : m.maxsize + 1 - m.maxsize = 1 := by omega
    rw [hone] at hstore
    refine ⟨hstore, ?_⟩
    rw [hstore]
    simp only [List.length_append, List.length_drop, List.length_singleton, hfull]
    omega

/-- Witness for C4: `maxsize = 2`, inserting `k1, k2, k3` at times
0, 1, 2 with `ttl = 100`: sizes stay at most 2 throughout, and the third
insert (live store full, key new) evicts the oldest entry. -/
theorem cache_capacity_witness :
    (∀ n : ℕ,
      (applySets (mkCacheManager ℕ 2 100)
          (([['k', '1'], ['k', '2']].map
            (fun s => (s, some 7, (0 : ℚ)))).take n)).store.length ≤ 2) ∧
    ((ttlExpire (mkCacheManager ℕ 2 100).store 0).length = 2 →
      (ttlExpire (mkCacheManager ℕ 2 100).store 0).find?
          (fun e => decide (e.key = ['k', '3'])) = none →
      ((mkCacheManager ℕ 2 100).set ['k', '3'] (some 7) 0).store
          = (ttlExpire (mkCacheManager ℕ 2 100).store 0).drop 1
            ++ [⟨['k', '3'], some 7, 0 + ((100 : ℕ) : ℚ)⟩] ∧
        ((mkCacheManager ℕ 2 100).set ['k', '3'] (some 7) 0).store.length = 2) :=
  cache_capacity (mkCacheManager ℕ 2 100)
    ([['k', '1'], ['k', '2']].map (fun s => (s, some 7, (0 : ℚ))))
    ['k', '3'] (some 7) 0 (by decide) (by decide)


/-! ### Counter consistency (C5) -/

/-- The public calls a caller can interleave on the manager. -/
inductive CacheOp (α : Type) where
  | get (k : PyStr) (now : ℚ)
  | set (k : PyStr) (v : Option α) (now : ℚ)

/-- Execute a sequence of `get`/`set` calls. -/
def runOps {α : Type} (m : CacheManager α) (ops : List (CacheOp α)) :
    CacheManager α :=
  ops.foldl (fun acc op =>
    match op with
    | CacheOp.get k now => (acc.get k now).2
    | CacheOp.set k v now => acc.set k v now) m

/-- Number of `get` calls in a sequence. -/
def numGets {α : Type} : List (CacheOp α) → ℕ
  | [] => 0
  | CacheOp.get _ _ :: l => numGets l + 1
  | CacheOp.set _ _ _ :: l => numGets l

theorem runOps_counts {α : Type} :
    ∀ (ops : List (CacheOp α)) (m : CacheManager α),
      (runOps m ops).hits + (runOps m ops).misses
        = m.hits + m.misses + numGets ops := by
  intro ops
  induction ops with
  | nil => intro m; simp [runOps, numGets]
  | cons op l ih =>
    intro m
    cases op with
    | get k now =>
      have hstep : ((m.get k now).2).hits + ((m.get k now).2).misses
          = m.hits + m.misses + 1 := by
        unfold CacheManager.get
        dsimp only
        split <;> dsimp only <;> omega
      calc (runOps m (CacheOp.get k now :: l)).hits
            + (runOps m (CacheOp.get k now :: l)).misses
          = ((m.get k now).2).hits + ((m.get k now).2).misses + numGets l := by
            simp only [runOps, List.foldl_cons]
            exact ih ((m.get k now).2)
        _ = m.hits + m.misses + (numGets l + 1) := by omega
        _ = m.hits + m.misses + numGets (CacheOp.get k now :: l) := by
            simp [numGets]
    | set k v now =>
      calc (runOps m (CacheOp.set k v now :: l)).hits
            + (runOps m (CacheOp.set k v now :: l)).misses
          = (m.set k v now).hits + (m.set k v now).misses + numGets l := by
            simp only [runOps, List.foldl_cons]
            exact ih (m.set k v now)
        _ = m.hits + m.misses + numGets (CacheOp.set k v now :: l) := by
            simp [CacheManager.set, numGets]

theorem pyRound2_zero : pyRound2 0 = 0 := by
  norm_num [pyRound2]

/-- C5 (amended): after any sequence of `get`/`set` calls on a freshly
constructed manager, `hits + misses` equals the number of `get` calls
made, and `get_stats()` reports the counters verbatim,
`total_requests = hits + misses`, and `hit_rate_percent` equal to
`hits / (hits + misses) * 100` rounded to two decimal places
(Python `round(·, 2)`), or `0` when no `get` has been made.  `get_stats`
is a pure function of the manager and changes no counter. -/
theorem cache_stats_consistency {α : Type} (maxsize ttl : ℕ)
    (ops : List (CacheOp α)) :
    (runOps (mkCacheManager α maxsize ttl) ops).hits
        + (runOps (mkCacheManager α maxsize ttl) ops).misses = numGets ops ∧
    (runOps (mkCacheManager α maxsize ttl) ops).get_stats.hits
        = (runOps (mkCacheManager α maxsize ttl) ops).hits ∧
    (runOps (mkCacheManager α maxsize ttl) ops).get_stats.misses
        = (runOps (mkCacheManager α maxsize ttl) ops).misses ∧
    (runOps (mkCacheManager α maxsize ttl) ops).get_stats.total_requests
        = numGets ops ∧
    (runOps (mkCacheManager α maxsize ttl) ops).get_stats.hit_rate_percent
        = (if 0 < numGets ops then
            pyRound2 (((runOps (mkCacheManager α maxsize ttl) ops).hits : ℚ)
              / (numGets ops : ℚ) * 100)
          else 0) := by
  have hcount := runOps_counts ops (mkCacheManager α maxsize ttl)
  have hzero : (mkCacheManager α maxsize ttl).hits
      + (mkCacheManager α maxsize ttl).misses = 0 := rfl
  rw [hzero, zero_add] at hcount
  refine ⟨hcount, rfl, rfl, ?_, ?_⟩
  · show (runOps (mkCacheManager α maxsize ttl) ops).hits
        + (runOps (mkCacheManager α maxsize ttl) ops).misses = numGets ops
    exact hcount
  · show pyRound2 (if 0 < (runOps (mkCacheManager α maxsize ttl) ops).hits
          + (runOps (mkCacheManager α maxsize ttl) ops).misses then
        ((runOps (mkCacheManager α maxsize ttl) ops).hits : ℚ)
          / (((runOps (mkCacheManager α maxsize ttl) ops).hits
            + (runOps (mkCacheManager α maxsize ttl) ops).misses : ℕ) : ℚ) * 100
      else 0) = _
    rw [hcount]
    by_cases hpos : 0 < numGets ops
    · simp only [hpos, if_true]
    · simp only [hpos, if_false, pyRound2_zero]

/-- The concrete trace refuting the exact-rate reading of the spec:
`set("a", 1)` then one hit on `"a"` and two misses on `"b"`. -/
def cxOps : List (CacheOp ℕ) :=
  [CacheOp.set ['a'] (some 1) 0, CacheOp.get ['a'] 1,
   CacheOp.get ['b'] 1, CacheOp.get ['b'] 1]

theorem cx_run : runOps (mkCacheManager ℕ 10 60) cxOps
    = ⟨[⟨['a'], some 1, 60⟩], 10, 60, 1, 2, 0⟩ := by
  have hc1 : (decide ('a' = 'b')) = false := by decide
  have hc2 : (decide ('b' = 'a')) = false := by decide
  have hc3 : (decide ('a' = 'a')) = true := by decide
  have hc4 : (decide ('b' = 'b')) = true := by decide
  have hl1 : (decide ((['a'] : List Char) = ['b'])) = false := by decide
  have hl2 : (decide ((['b'] : List Char) = ['a'])) = false := by decide
  have hl3 : (decide ((['a'] : List Char) = ['a'])) = true := by decide
  have hl4 : (decide ((['b'] : List Char) = ['b'])) = true := by decide
  norm_num [cxOps, runOps, CacheManager.get, CacheManager.set, ttlGet, ttlSet,
    ttlExpire, mkCacheManager, List.find?, List.filter, hc1, hc2, hc3, hc4,
    hl1, hl2, hl3, hl4]

/-- C5 counterexample: after the trace `set("a",1); get("a"); get("b");
get("b")` the manager holds `hits = 1`, `misses = 2`, but `get_stats()`
reports `hit_rate_percent = 33.33`, which is not `hits/(hits+misses)*100
= 100/3`: the code rounds to two decimal places, so the exact
equality fails. -/
theorem cache_stats_exact_rate_cx :
    (runOps (mkCacheManager ℕ 10 60) cxOps).hits = 1 ∧
    (runOps (mkCacheManager ℕ 10 60) cxOps).misses = 2 ∧
    (runOps (mkCacheManager ℕ 10 60) cxOps).get_stats.hit_rate_percent
      ≠ (((runOps (mkCacheManager ℕ 10 60) cxOps).hits : ℚ)
          / (((runOps (mkCacheManager ℕ 10 60) cxOps).hits
              + (runOps (mkCacheManager ℕ 10 60) cxOps).misses : ℕ) : ℚ)) * 100 := by
  refine ⟨by rw [cx_run], by rw [cx_run], ?_⟩
  rw [cx_run]
  have hfl : (⌊(1 : ℚ) / ((3 : ℕ) : ℚ) * 100 * 100⌋ : ℤ) = 3333 := by
    rw [Int.floor_eq_iff]
    norm_num
  norm_num [CacheManager.get_stats, pyRound2, hfl]

/-! ### The `cached` wrapper (C6, C10) -/

/-- A concrete provider error used in witnesses. -/
def boom : String :=
  "boom"

/-- Reading via `CacheManager.get` keeps the configuration and the store
parameters. -/
theorem get_config_eq {α : Type} (m : CacheManager α) (k : PyStr) (now : ℚ) :
    ((m.get k now).2).ttl = m.ttl ∧ ((m.get k now).2).maxsize = m.maxsize := by
  unfold CacheManager.get
  dsimp only
  split <;> exact ⟨rfl, rfl⟩

/-- Reading a key right after storing Python `None` under it yields
`None` and counts a miss, at every read time. -/
theorem get_set_none {α : Type} (m : CacheManager α) (k : PyStr) (t tq : ℚ) :
    ((m.set k none t).get k tq).1 = none ∧
    ((m.set k none t).get k tq).2.misses = m.misses + 1 ∧
    ((m.set k none t).get k tq).2.hits = m.hits := by
  have hfind : List.find? (fun e => decide (e.key = k))
        (ttlSet m.store k none t m.maxsize (m.ttl : ℚ))
      = some ⟨k, none, t + (m.ttl : ℚ)⟩ :=
    find?_ttlSet m.store k none t m.maxsize (m.ttl : ℚ)
  by_cases hlt : tq < t + (m.ttl : ℚ)
  · simp [CacheManager.get, CacheManager.set, ttlGet, hfind, hlt]
  · simp [CacheManager.get, CacheManager.set, ttlGet, hfind, hlt]

/-- C6: the wrapper returns a present (non-`None`) cached value without
running the wrapped function — the outcome is the same for every
possible fetch result `fr`, and the invocation flag is `false`.  On a
miss it runs the function; if the function raises, the error propagates
unmodified and the store is left exactly as it was — the failure is not
cached. -/
theorem cached_wrapper_spec {α ε : Type} (kpfx fname : PyStr)
    (m : CacheManager α) (args : List PyStr) (kwargs : List (PyStr × PyStr))
    (now : ℚ) :
    (∀ x : α, (m.get (wrapKey kpfx fname args kwargs) now).1 = some x →
      ∀ fr : Except ε (Option α),
        sync_wrapper kpfx fname m args kwargs fr now
          = (Except.ok (some x), false,
              (m.get (wrapKey kpfx fname args kwargs) now).2)) ∧
    ((m.get (wrapKey kpfx fname args kwargs) now).1 = none →
      ∀ e : ε,
        sync_wrapper kpfx fname m args kwargs (Except.error e) now
          = (Except.error e, true,
              (m.get (wrapKey kpfx fname args kwargs) now).2) ∧
        ((sync_wrapper kpfx fname m args kwargs
            (Except.error e) now).2.2).store = m.store) := by
  constructor
  · intro x hx fr
    simp [sync_wrapper, hx]
  · intro hmiss e
    refine ⟨by simp [sync_wrapper, hmiss], ?_⟩
    simp [sync_wrapper, hmiss, get_store_eq]

/-- Witness for C6: key prefix `"p"`, function name `"f"`, one
positional argument `"a"`; the hit case on a manager preloaded with `5`
under the wrapper key, the propagation case on a fresh manager with a
failing fetch. -/
theorem cached_wrapper_spec_witness :
    (sync_wrapper ['p'] ['f']
        ((mkCacheManager ℕ 10 60).set (wrapKey ['p'] ['f'] [['a']] []) (some 5) 0)
        [['a']] [] (Except.error boom) 1
      = (Except.ok (some 5), false,
          (((mkCacheManager ℕ 10 60).set (wrapKey ['p'] ['f'] [['a']] []) (some 5) 0).get
            (wrapKey ['p'] ['f'] [['a']] []) 1).2)) ∧
    (sync_wrapper ['p'] ['f'] (mkCacheManager ℕ 10 60) [['a']] []
        (Except.error boom) 1
      = (Except.error boom, true,
          ((mkCacheManager ℕ 10 60).get (wrapKey ['p'] ['f'] [['a']] []) 1).2) ∧
      ((sync_wrapper ['p'] ['f'] (mkCacheManager ℕ 10 60) [['a']] []
          (Except.error boom) 1).2.2).store = (mkCacheManager ℕ 10 60).store) := by
  constructor
  · refine (cached_wrapper_spec ['p'] ['f']
      ((mkCacheManager ℕ 10 60).set (wrapKey ['p'] ['f'] [['a']] []) (some 5) 0)
      [['a']] [] 1).1 5 ?_ (Except.error boom)
    have hfind : List.find?
          (fun e => decide (e.key = wrapKey ['p'] ['f'] [['a']] []))
          (ttlSet (mkCacheManager ℕ 10 60).store (wrapKey ['p'] ['f'] [['a']] [])
            (some 5) 0 (mkCacheManager ℕ 10 60).maxsize
            (((mkCacheManager ℕ 10 60).ttl : ℕ) : ℚ))
        = some ⟨wrapKey ['p'] ['f'] [['a']] [], some 5,
            0 + (((mkCacheManager ℕ 10 60).ttl : ℕ) : ℚ)⟩ :=
      find?_ttlSet _ _ _ _ _ _
    simp only [CacheManager.get, CacheManager.set, ttlGet, mkCacheManager] at hfind ⊢
    rw [hfind]
    norm_num
  · exact (cached_wrapper_spec ['p'] ['f'] (mkCacheManager ℕ 10 60)
      [['a']] [] 1).2 rfl boom

/-- C10: storing Python `None` under a key makes `get` on that key
return absent and count a miss at every later read, rather than serving
the stored value; consequently a wrapped function whose result is `None`
has its result stored by the wrapper yet is run again by every
subsequent call with the same arguments — `None` results are stored but
never served. -/
theorem cached_none_stored_never_served {α ε : Type} (m : CacheManager α)
    (k : PyStr) (t tq : ℚ) (kpfx fname : PyStr) (args : List PyStr)
    (kwargs : List (PyStr × PyStr)) (now now₂ : ℚ) (fr2 : Except ε (Option α))
    (hmiss : (m.get (wrapKey kpfx fname args kwargs) now).1 = none) :
    ((m.set k none t).get k tq).1 = none ∧
    ((m.set k none t).get k tq).2.misses = m.misses + 1 ∧
    (sync_wrapper kpfx fname m args kwargs
        (Except.ok none : Except ε (Option α)) now).2.1 = true ∧
    ((sync_wrapper kpfx fname m args kwargs
        (Except.ok none : Except ε (Option α)) now).2.2).store.find?
          (fun e => decide (e.key = wrapKey kpfx fname args kwargs))
      = some ⟨wrapKey kpfx fname args kwargs, none, now + (m.ttl : ℚ)⟩ ∧
    (sync_wrapper kpfx fname
        (sync_wrapper kpfx fname m args kwargs
          (Except.ok none : Except ε (Option α)) now).2.2
        args kwargs fr2 now₂).2.1 = true := by
  have hw1 : sync_wrapper kpfx fname m args kwargs
        (Except.ok none : Except ε (Option α)) now
      = (Except.ok none, true,
          ((m.get (wrapKey kpfx fname args kwargs) now).2).set
            (wrapKey kpfx fname args kwargs) none now) := by
    simp [sync_wrapper, hmiss]
  have httl : ((m.get (wrapKey kpfx fname args kwargs) now).2).ttl = m.ttl :=
    (get_config_eq m (wrapKey kpfx fname args kwargs) now).1
  refine ⟨(get_set_none m k t tq).1, (get_set_none m k t tq).2.1, ?_, ?_, ?_⟩
  · rw [hw1]
  · rw [hw1]
    show List.find? _ (ttlSet _ _ _ _ _ _) = _
    rw [find?_ttlSet]
    rw [httl]
  · rw [hw1]
    have hmiss2 : ((((m.get (wrapKey kpfx fname args kwargs) now).2).set
          (wrapKey kpfx fname args kwargs) none now).get
          (wrapKey kpfx fname args kwargs) now₂).1 = none :=
      (get_set_none ((m.get (wrapKey kpfx fname args kwargs) now).2)
        (wrapKey kpfx fname args kwargs) now now₂).1
    cases fr2 with
    | error e => simp [sync_wrapper, hmiss2]
    | ok r => simp [sync_wrapper, hmiss2]

/-- Witness for C10: a fresh manager, wrapper key prefix `"p"`, name
`"f"`, argument `"a"`; `None` stored under `"z"` at time 0 is absent at
time 1; the wrapper caches a `None` fetch result at time 2 and runs the
function again at time 3. -/
theorem cached_none_stored_never_served_witness :
    (((mkCacheManager ℕ 10 60).set ['z'] none 0).get ['z'] 1).1 = none ∧
    (((mkCacheManager ℕ 10 60).set ['z'] none 0).get ['z'] 1).2.misses
      = (mkCacheManager ℕ 10 60).misses + 1 ∧
    (sync_wrapper ['p'] ['f'] (mkCacheManager ℕ 10 60) [['a']] []
        (Except.ok none : Except ℕ (Option ℕ)) 2).2.1 = true ∧
    ((sync_wrapper ['p'] ['f'] (mkCacheManager ℕ 10 60) [['a']] []
        (Except.ok none : Except ℕ (Option ℕ)) 2).2.2).store.find?
          (fun e => decide (e.key = wrapKey ['p'] ['f'] [['a']] []))
      = some ⟨wrapKey ['p'] ['f'] [['a']] [], none,
          2 + (((mkCacheManager ℕ 10 60).ttl : ℕ) : ℚ)⟩ ∧
    (sync_wrapper ['p'] ['f']
        (sync_wrapper ['p'] ['f'] (mkCacheManager ℕ 10 60) [['a']] []
          (Except.ok none : Except ℕ (Option ℕ)) 2).2.2
        [['a']] [] (Except.ok (some 9) : Except ℕ (Option ℕ)) 3).2.1 = true :=
  cached_none_stored_never_served (mkCacheManager ℕ 10 60) ['z'] 0 1
    ['p'] ['f'] [['a']] [] 2 3 (Except.ok (some 9)) rfl

end CryptoMCP
